import Mathlib

/-!
Verification development for the contact-scraper extraction and deduplication
pipeline. The Python modules under src/extractor are shallowly embedded:
strings are Lean strings (lists of characters, ASCII semantics for the
character classification functions), Python dictionaries with the four
optional keys name/email/phone/source_url become a structure of
Option-valued fields, and the regular expressions are embedded as explicit
backtracking matchers over lists of characters. BeautifulSoup parsing is an
external collaborator: extractors consume an already parsed document
(tables as rows of cell texts, anchors, elements with class/id attributes,
and the visible-text lines).
-/

/-! ## Python string primitives -/

/-- Python str.strip on a list of characters: drop whitespace from both ends. -/
def stripL (l : List Char) : List Char :=
  ((l.dropWhile Char.isWhitespace).reverse.dropWhile Char.isWhitespace).reverse

/-- Python str.strip. -/
def pyStrip (s : String) : String := ⟨stripL s.data⟩

/-- Python str.lower (ASCII model). -/
def pyLower (s : String) : String := ⟨s.data.map Char.toLower⟩

/-- Python str.split() with no argument: split on whitespace runs, dropping
empty pieces. Accumulator-style so that it computes by kernel reduction;
`cur` holds the current word reversed. -/
def wordsAux : List Char → List Char → List (List Char)
  | [], cur => if cur.isEmpty then [] else [cur.reverse]
  | c :: r, cur =>
    if c.isWhitespace then
      (if cur.isEmpty then wordsAux r [] else cur.reverse :: wordsAux r [])
    else wordsAux r (c :: cur)

/-- The words of a string, as lists of characters. -/
def wordsOf (l : List Char) : List (List Char) := wordsAux l []

/-- Python str.title core loop: uppercase a letter after a non-letter,
lowercase a letter after a letter (ASCII model of "cased"). -/
def titleAux : List Char → Bool → List Char
  | [], _ => []
  | c :: r, prevAlpha =>
    (if c.isAlpha then (if prevAlpha then c.toLower else c.toUpper) else c) ::
      titleAux r c.isAlpha

/-- Python str.title. -/
def pyTitle (l : List Char) : List Char := titleAux l false

/-- Python truthiness of an optional string: present and non-empty. -/
def optTruthy : Option String → Bool
  | none => false
  | some s => !s.data.isEmpty

/-! ## src/extractor/utils.py : canonical_phone -/

/-- Body of utils.canonical_phone on a list of characters. Mirrors the
source: empty input short-circuits, then strip, remember a leading plus,
keep the digits, and re-attach the plus only when digits survive. -/
def canonList (l : List Char) : List Char :=
  if l = [] then []
  else
    let t := stripL l
    let ds := t.filter Char.isDigit
    if t.head? = some '+' && !ds.isEmpty then '+' :: ds else ds

/-- utils.canonical_phone. -/
def canonical_phone (s : String) : String := ⟨canonList s.data⟩

/-- The claim's description of canonical_phone, written from the words of
the spec sentence: return empty when the input is empty or has no digits,
otherwise the digit characters of the input in order, with a plus prefix
exactly when the trimmed input starts with a plus. -/
def canonicalPhoneSpec (s : String) : String :=
  if s.data = [] ∨ s.data.filter Char.isDigit = [] then ""
  else if (stripL s.data).head? = some '+' then ⟨'+' :: s.data.filter Char.isDigit⟩
  else ⟨s.data.filter Char.isDigit⟩

/-! ## Contact records -/

/-- A candidate contact record: a Python dict with the four optional keys.
`none` models an absent key; `some ""` a key that is present but empty. -/
structure ContactRecord where
  name : Option String := none
  email : Option String := none
  phone : Option String := none
  source_url : Option String := none
deriving DecidableEq

/-! ## src/extractor/normalizer.py -/

/-- normalizer.normalize_name: collapse whitespace runs to single spaces,
trim, then Python title-case. -/
def normalize_name (s : String) : String :=
  ⟨pyTitle (List.intercalate [' '] (wordsOf s.data))⟩

/-- normalizer.normalize_email: strip then lowercase. -/
def normalize_email (s : String) : String := pyLower (pyStrip s)

/-- normalizer.normalize_phone. -/
def normalize_phone (s : String) : String := canonical_phone s

/-- normalizer.normalize_record: each key present in the input is carried
over with its normalized value; absent keys stay absent. -/
def normalize_record (r : ContactRecord) : ContactRecord :=
  { name := match r.name with | some v => some (normalize_name v) | none => none
    email := match r.email with | some v => some (normalize_email v) | none => none
    phone := match r.phone with | some v => some (normalize_phone v) | none => none
    source_url := match r.source_url with | some v => some (pyStrip v) | none => none }

/-! ## src/extractor/utils.py : dedupe_records (Stage 2) -/

/-- The Stage-2 key: lowercased email (or empty) and canonical phone
(or empty). Mirrors `(record.get('email') or '').lower()` and
`canonical_phone(record.get('phone') or '')`. -/
def key2 (r : ContactRecord) : String × String :=
  (pyLower (r.email.getD ""), canonical_phone (r.phone.getD ""))

/-- The loop of utils.dedupe_records with its seen-set made explicit. -/
def dedupeAux (seen : List (String × String)) : List ContactRecord → List ContactRecord
  | [] => []
  | r :: rs =>
    if key2 r ∈ seen then dedupeAux seen rs
    else r :: dedupeAux (key2 r :: seen) rs

/-- utils.dedupe_records. -/
def dedupe_records (l : List ContactRecord) : List ContactRecord := dedupeAux [] l

/-- Spec-side formalization of first-occurrence deduplication, written from
the spec words: keep each element, then delete every later element with the
same key. -/
def keepFirstBy {α : Type} {κ : Type} [DecidableEq κ] (key : α → κ) : List α → List α
  | [] => []
  | x :: xs => x :: keepFirstBy key (xs.filter fun y => decide (key y ≠ key x))
termination_by l => l.length
decreasing_by
  simp only [List.length_cons]
  exact Nat.lt_succ_of_le (List.length_filter_le _ _)

/-! ## Regular-expression engine

The three patterns of parser.py are embedded as abstract syntax plus a
prioritized backtracking matcher. `mrun` returns the list of possible
(previous character, remaining input) states in exactly Python's
backtracking priority order (greedy quantifiers try longer matches first,
alternatives left to right), so the head of the list is the match the
`re` module commits to. The star case is driven by fuel; every starred
subexpression below is a character class, which consumes at least one
character per iteration, so fuel `length + 1` is exact. -/

inductive RE where
  | eps
  | cls (p : Char → Bool)
  | wb
  | seq (a b : RE)
  | alt (a b : RE)
  | star (e : RE)

/-- Word character for the boundary assertion: letters, digits, underscore. -/
def isWordChar (c : Char) : Bool := c.isAlphanum || c = '_'

/-- Word-boundary test between the previous character and the rest. -/
def wbAt (p : Option Char) (cs : List Char) : Bool :=
  (match p with | some c => isWordChar c | none => false) !=
    (match cs with | c :: _ => isWordChar c | [] => false)

/-- Greedy Kleene star driven by fuel: prefer consuming another copy. -/
def mstar (m : Option Char → List Char → List (Option Char × List Char)) :
    Nat → Option Char → List Char → List (Option Char × List Char)
  | 0, p, cs => [(p, cs)]
  | fuel + 1, p, cs =>
    ((m p cs).flatMap fun pr => mstar m fuel pr.1 pr.2) ++ [(p, cs)]

/-- The matcher: all reachable states in backtracking priority order. -/
def mrun (fuel : Nat) : RE → Option Char → List Char → List (Option Char × List Char)
  | .eps, p, cs => [(p, cs)]
  | .cls f, _, cs =>
    (match cs with
     | [] => []
     | c :: rest => if f c then [(some c, rest)] else [])
  | .wb, p, cs => if wbAt p cs then [(p, cs)] else []
  | .seq a b, p, cs => (mrun fuel a p cs).flatMap fun pr => mrun fuel b pr.1 pr.2
  | .alt a b, p, cs => mrun fuel a p cs ++ mrun fuel b p cs
  | .star e, p, cs => mstar (mrun fuel e) fuel p cs

/-- `e+` : one copy then a greedy star. -/
def RE.plus (e : RE) : RE := .seq e (.star e)

/-- `e?` greedy: try the copy first, then the empty match. -/
def RE.orEmpty (e : RE) : RE := .alt e .eps

/-- `e{0,n}` greedy: as many copies as possible, at most n. -/
def repAtMost (e : RE) : Nat → RE
  | 0 => .eps
  | n + 1 => .alt (.seq e (repAtMost e n)) .eps

/-- Run at one position with exact fuel. -/
def mrunAt (e : RE) (p : Option Char) (cs : List Char) : List (Option Char × List Char) :=
  mrun (cs.length + 1) e p cs

/-- Python re.search returning group(0): leftmost position first, then the
first state in backtracking order; the consumed prefix is the match. -/
def reSearchAux (e : RE) : Option Char → List Char → Option (List Char)
  | p, cs =>
    match (mrunAt e p cs).head? with
    | some pr => some (cs.take (cs.length - pr.2.length))
    | none =>
      match cs with
      | [] => none
      | c :: rest => reSearchAux e (some c) rest

/-- re.search on a string, returning group(0). -/
def reSearch (e : RE) (s : String) : Option String :=
  (reSearchAux e none s.data).map fun l => ⟨l⟩

/-- Truthiness of Python re.match: some match starting at position zero. -/
def reMatchB (e : RE) (s : String) : Bool := !(mrunAt e none s.data).isEmpty

/-- Python re.fullmatch truthiness: some match consuming the whole string. -/
def reFullmatchB (e : RE) (s : String) : Bool :=
  (mrunAt e none s.data).any fun pr => pr.2.isEmpty

/-! ## The three patterns of parser.py -/

/-- Local-part characters of EMAIL_RE. -/
def localChar (c : Char) : Bool :=
  c.isAlpha || c.isDigit || c = '.' || c = '_' || c = '%' || c = '+' || c = '-'

/-- Domain characters of EMAIL_RE. -/
def domChar (c : Char) : Bool := c.isAlpha || c.isDigit || c = '.' || c = '-'

/-- Top-level-domain characters of EMAIL_RE: the source class is
`[A-Z|a-z]`, which literally contains the bar character. -/
def tldChar (c : Char) : Bool := c.isAlpha || c = '|'

/-- parser.EMAIL_RE. -/
def EMAIL_RE : RE :=
  .seq .wb (.seq (RE.plus (.cls localChar)) (.seq (.cls (fun c => c = '@'))
    (.seq (RE.plus (.cls domChar)) (.seq (.cls (fun c => c = '.'))
      (.seq (.seq (.cls tldChar) (RE.plus (.cls tldChar))) .wb)))))

/-- Separator class `[\s.-]` of PHONE_RE. -/
def phoneSep (c : Char) : Bool := c.isWhitespace || c = '.' || c = '-'

/-- Digit class. -/
def digitC : RE := .cls Char.isDigit

/-- parser.PHONE_RE: optional country code, optional area code, main number. -/
def PHONE_RE : RE :=
  .seq (RE.orEmpty (.seq (RE.orEmpty (.cls (fun c => c = '+')))
    (.seq (.seq digitC (repAtMost digitC 2)) (RE.orEmpty (.cls phoneSep)))))
  (.seq (RE.orEmpty (.seq (RE.orEmpty (.cls (fun c => c = '(')))
    (.seq (.seq digitC (.seq digitC (repAtMost digitC 2)))
      (.seq (RE.orEmpty (.cls (fun c => c = ')'))) (RE.orEmpty (.cls phoneSep))))))
  (.seq (.seq digitC (.seq digitC (.seq digitC (repAtMost digitC 1))))
    (.seq (RE.orEmpty (.cls phoneSep))
      (.seq (.seq digitC (.seq digitC (.seq digitC (repAtMost digitC 1))))
        (RE.orEmpty (.seq (RE.orEmpty (.cls phoneSep))
          (.seq digitC (repAtMost digitC 3))))))))

/-! ## NAME_PATTERN as a direct parser

parser.NAME_PATTERN is
`(?:name|contact|person)[\s:=-]+([A-Z][a-z]+(?:\s+[A-Z][a-z]+)+)` compiled
with IGNORECASE, so both letter classes accept any letter. The separator
class is disjoint from letters, letters are disjoint from whitespace, and
nothing follows the capture group, so the backtracking search coincides
with leftmost maximal-munch parsing, which is what is implemented here:
scan positions left to right, at each position try the three labels (their
first letters differ, so at most one can apply), then a maximal nonempty
separator run, then maximal letter words of length at least two separated
by maximal whitespace runs, at least two words in total. The capture is
the word portion. -/

/-- Separator class `[\s:=-]`. -/
def isSepChar (c : Char) : Bool := c.isWhitespace || c = ':' || c = '=' || c = '-'

/-- Consume one literal label case-insensitively. -/
def stripLabelWord : List Char → List Char → Option (List Char)
  | [], cs => some cs
  | _ :: _, [] => none
  | l :: ls, c :: cs => if l.toLower = c.toLower then stripLabelWord ls cs else none

/-- Try the three labels in the alternation order of the source. -/
def stripLabel (cs : List Char) : Option (List Char) :=
  match stripLabelWord "name".data cs with
  | some r => some r
  | none =>
    match stripLabelWord "contact".data cs with
    | some r => some r
    | none => stripLabelWord "person".data cs

/-- Greedy `(?:\s+[A-Z][a-z]+)+` with IGNORECASE: one or more groups of a
nonempty whitespace run followed by a letter word of length at least two.
Returns the consumed characters and the remaining input. Each group
consumes at least three characters, so fuel `length` is exact. -/
def parseTail : Nat → List Char → Option (List Char × List Char)
  | 0, _ => none
  | fuel + 1, cs =>
    let sp := cs.takeWhile Char.isWhitespace
    let r1 := cs.dropWhile Char.isWhitespace
    if sp.isEmpty then none
    else
      let w := r1.takeWhile Char.isAlpha
      let r2 := r1.dropWhile Char.isAlpha
      if w.length < 2 then none
      else
        match parseTail fuel r2 with
        | some (c2, rest) => some (sp ++ w ++ c2, rest)
        | none => some (sp ++ w, r2)

/-- NAME_PATTERN anchored at the current position: label, separator run,
then the capture group. Returns group(1). -/
def nameMatchAt (cs : List Char) : Option (List Char) :=
  match stripLabel cs with
  | none => none
  | some r0 =>
    let sp := r0.takeWhile isSepChar
    let r1 := r0.dropWhile isSepChar
    if sp.isEmpty then none
    else
      let w := r1.takeWhile Char.isAlpha
      let r2 := r1.dropWhile Char.isAlpha
      if w.length < 2 then none
      else
        match parseTail r2.length r2 with
        | some (c2, _) => some (w ++ c2)
        | none => none

/-- NAME_PATTERN.search returning group(1): leftmost position wins. -/
def nameSearchL : List Char → Option (List Char)
  | [] => none
  | c :: cs =>
    match nameMatchAt (c :: cs) with
    | some cap => some cap
    | none => nameSearchL cs

/-- NAME_PATTERN.search on a string. -/
def nameSearchS (s : String) : Option String :=
  (nameSearchL s.data).map fun l => ⟨l⟩

/-! ## Substring and replacement helpers -/

/-- Python `pat in s` on lists: pat occurs as a contiguous substring. -/
def isSubstr (pat : List Char) : List Char → Bool
  | [] => pat.isEmpty
  | c :: rest => pat.isPrefixOf (c :: rest) || isSubstr pat rest

/-- Python `pat in s`, case-sensitive. -/
def inStr (pat s : String) : Bool := isSubstr pat.data s.data

/-- `re.search(word, s, IGNORECASE)` truthiness for a plain-letters word:
case-insensitive substring containment. -/
def containsCI (pat s : String) : Bool :=
  isSubstr (pat.data.map Char.toLower) (s.data.map Char.toLower)

/-- `re.search('^' ++ pat, s, IGNORECASE)` truthiness: case-insensitive
prefix. -/
def startsWithCI (pat s : String) : Bool :=
  (pat.data.map Char.toLower).isPrefixOf (s.data.map Char.toLower)

/-- Python str.replace for a nonempty pattern: replace every non-overlapping
occurrence, scanning left to right. Fuel-driven so that it computes by
kernel reduction; called with fuel equal to the input length, which is
exact because at least one character is consumed per step. -/
def replA (pat repl : List Char) : Nat → List Char → List Char
  | _, [] => []
  | 0, cs => cs
  | fuel + 1, c :: cs =>
    if !pat.isEmpty && pat.isPrefixOf (c :: cs) then
      repl ++ replA pat repl fuel ((c :: cs).drop pat.length)
    else c :: replA pat repl fuel cs

/-- Python str.replace (for the nonempty patterns used here). -/
def replaceAll (pat repl l : List Char) : List Char := replA pat repl l.length l

/-! ## src/extractor/parser.py : the extractors

A parsed document. BeautifulSoup is the excluded parsing collaborator;
the extractors consume its results: each table is a list of rows, each row
the list of its cell texts (`find_all` of tr and of td/th, in document
order); anchors carry their href attribute and visible text; elements carry
their class list, optional id and visible text; textLines is
`soup.get_text().split('\n')`. Cell and anchor texts are raw: the
`get_text(strip=True)` stripping is applied where the source applies it. -/

structure Anchor where
  href : String
  text : String
deriving DecidableEq

structure Elem where
  classes : List String
  idAttr : Option String
  text : String
deriving DecidableEq

structure Doc where
  tables : List (List (List String))
  anchors : List Anchor
  elems : List Elem
  textLines : List String
deriving DecidableEq

/-- Python dict truthiness of a candidate at the `if contact:` checks: some
key among name/email/phone is present (possibly with an empty value). -/
def hasAnyField (r : ContactRecord) : Bool :=
  r.name.isSome || r.email.isSome || r.phone.isSome

/-- The header-mapping loop of _extract_from_tables: for each header cell
in order, the first true branch wins for that cell, and a later matching
cell overwrites the stored index of its category. -/
def headerIdxs (headers : List String) : Option Nat × Option Nat × Option Nat :=
  headers.enum.foldl
    (fun acc ih =>
      if inStr "name" ih.2 || inStr "contact" ih.2 || inStr "person" ih.2 then
        (some ih.1, acc.2.1, acc.2.2)
      else if inStr "email" ih.2 || inStr "mail" ih.2 then
        (acc.1, some ih.1, acc.2.2)
      else if inStr "phone" ih.2 || inStr "tel" ih.2 || inStr "mobile" ih.2 then
        (acc.1, acc.2.1, some ih.1)
      else acc)
    (none, none, none)

/-- Python truthiness of an optional column index, as it occurs in
`any([name_idx, email_idx, phone_idx])`: the integer 0 is falsy. -/
def optIdxTruthy : Option Nat → Bool
  | none => false
  | some n => n != 0

/-- `start_idx = 1 if any([name_idx, email_idx, phone_idx]) else 0` with
Python truthiness, exactly as in the source. -/
def tableStartIdx (idxs : Option Nat × Option Nat × Option Nat) : Nat :=
  if optIdxTruthy idxs.1 || optIdxTruthy idxs.2.1 || optIdxTruthy idxs.2.2 then 1 else 0

/-- One data row of a table: mapped columns first, then the fallback scan
of every cell, filling email and then phone only while still falsy. -/
def processRow (idxs : Option Nat × Option Nat × Option Nat)
    (cells : List String) : Option ContactRecord :=
  match cells with
  | [] => none
  | _ =>
    let name0 : Option String :=
      match idxs.1 with
      | some i => (cells.get? i).map pyStrip
      | none => none
    let email0 : Option String :=
      match idxs.2.1 with
      | some i => (cells.get? i).map pyStrip
      | none => none
    let phone0 : Option String :=
      match idxs.2.2 with
      | some i => (cells.get? i).map pyStrip
      | none => none
    let ep := cells.foldl
      (fun (ep : Option String × Option String) cell =>
        let t := pyStrip cell
        let e := if !optTruthy ep.1 then
            (match reSearch EMAIL_RE t with | some m => some m | none => ep.1)
          else ep.1
        let p := if !optTruthy ep.2 then
            (match reSearch PHONE_RE t with | some m => some m | none => ep.2)
          else ep.2
        (e, p))
      (email0, phone0)
    let r : ContactRecord := { name := name0, email := ep.1, phone := ep.2 }
    if hasAnyField r then some r else none

/-- parser._extract_from_tables. -/
def _extract_from_tables (tables : List (List (List String))) : List ContactRecord :=
  tables.flatMap fun rows =>
    match rows with
    | [] => []
    | headerRow :: _ =>
      let headers := headerRow.map fun c => pyLower (pyStrip c)
      let idxs := headerIdxs headers
      (rows.drop (tableStartIdx idxs)).filterMap (processRow idxs)

/-- The remainder computation of parser._extract_mailto_links:
`link.get('href', '').replace('mailto:', '').split('?')[0].strip()`.
The replace is case-sensitive and global. -/
def mailtoRemainder (href : String) : String :=
  pyStrip ⟨(replaceAll "mailto:".data [] href.data).takeWhile fun c => c ≠ '?'⟩

/-- parser._extract_mailto_links over the anchors whose href matches
`^mailto:` case-insensitively. The guard is `EMAIL_RE.match`, Python prefix
semantics. -/
def _extract_mailto_links : List Anchor → List ContactRecord
  | [] => []
  | a :: rest =>
    if startsWithCI "mailto:" a.href then
      let email := mailtoRemainder a.href
      let name := pyStrip a.text
      if reMatchB EMAIL_RE email then
        { email := some email
          name := if name ≠ "" ∧ name ≠ email then some name else none } ::
          _extract_mailto_links rest
      else _extract_mailto_links rest
    else _extract_mailto_links rest

/-- The fixed keyword list of parser._extract_semantic_elements. -/
def semantic_patterns : List String :=
  ["name", "fullname", "contact", "email", "phone", "tel", "mobile"]

/-- parser._extract_semantic_elements: for each keyword, the elements
matched by class then those matched by id, concatenated; branch on which
keyword category applies (substring checks on the keyword, first true
branch wins), and keep the element only if it produced a field. -/
def _extract_semantic_elements (els : List Elem) : List ContactRecord :=
  semantic_patterns.flatMap fun pat =>
    (els.filter (fun e => e.classes.any fun c => containsCI pat c) ++
      els.filter fun e =>
        match e.idAttr with
        | some s => containsCI pat s
        | none => false).filterMap fun e =>
      let text := pyStrip e.text
      let r : ContactRecord :=
        if inStr "email" pat || inStr "mail" pat then
          (match reSearch EMAIL_RE text with
           | some m => { email := some m }
           | none => {})
        else if inStr "phone" pat || inStr "tel" pat || inStr "mobile" pat then
          (match reSearch PHONE_RE text with
           | some m => { phone := some m }
           | none => {})
        else if inStr "name" pat || inStr "contact" pat then
          (if text ≠ "" ∧ 2 < text.data.length then { name := some text } else {})
        else {}
      if hasAnyField r then some r else none

/-- parser._extract_structured: tables, then mailto links, then semantic
elements, concatenated. -/
def _extract_structured (doc : Doc) : List ContactRecord :=
  _extract_from_tables doc.tables ++ _extract_mailto_links doc.anchors ++
    _extract_semantic_elements doc.elems

/-- parser._extract_candidates_via_text: per line, strip, skip blanks,
search the three patterns, keep the record if any field was found. -/
def _extract_candidates_via_text (ls : List String) : List ContactRecord :=
  ls.filterMap fun line0 =>
    let line := pyStrip line0
    if line = "" then none
    else
      let r : ContactRecord :=
        { email := reSearch EMAIL_RE line
          phone := reSearch PHONE_RE line
          name := (nameSearchS line).map pyStrip }
      if hasAnyField r then some r else none

/-! ## Stage-1 dedup and the pipeline -/

/-- One Stage-1 key component with strip and lower, as computed for name
and email: None when the field is absent or the empty string (Python
truthiness), otherwise `value.strip().lower()`. -/
def key1Lower (o : Option String) : Option String :=
  match o with
  | some s => if s = "" then none else some (pyLower (pyStrip s))
  | none => none

/-- The Stage-1 key component for phone: strip only. -/
def key1Plain (o : Option String) : Option String :=
  match o with
  | some s => if s = "" then none else some (pyStrip s)
  | none => none

/-- The Stage-1 key of extract_contacts. -/
def key1 (c : ContactRecord) : Option String × Option String × Option String :=
  (key1Lower c.name, key1Lower c.email, key1Plain c.phone)

/-- `any(key)` over the Stage-1 key: some component is a non-empty string. -/
def anyK1 (k : Option String × Option String × Option String) : Bool :=
  optTruthy k.1 || optTruthy k.2.1 || optTruthy k.2.2

/-- `contact['source_url'] = source_url`. -/
def stamp (url : String) (c : ContactRecord) : ContactRecord :=
  { c with source_url := some url }

/-- The Stage-1 loop of parser.extract_contacts with its seen-set made
explicit: skip a candidate whose key is all falsy or already seen,
otherwise stamp the source url and keep it. -/
def stage1Aux (url : String) (seen : List (Option String × Option String × Option String)) :
    List ContactRecord → List ContactRecord
  | [] => []
  | c :: cs =>
    if anyK1 (key1 c) = false ∨ key1 c ∈ seen then stage1Aux url seen cs
    else stamp url c :: stage1Aux url (key1 c :: seen) cs

/-- parser.extract_contacts: structured plus text candidates, then the
Stage-1 dedup-and-stamp loop. -/
def extract_contacts (doc : Doc) (url : String) : List ContactRecord :=
  stage1Aux url [] (_extract_structured doc ++ _extract_candidates_via_text doc.textLines)

/-- The processing loop of main.py: per document extract and normalize,
accumulate, then one cross-document dedupe_records pass. -/
def runPipeline (docs : List (Doc × String)) : List ContactRecord :=
  dedupe_records (docs.flatMap fun du => (extract_contacts du.1 du.2).map normalize_record)

/-! ## Claim-side definitions -/

/-- Modelled from the words of claim C2 (the original claim): strip the
`mailto:` prefix and any trailing query string, emit iff the remainder is
in its entirety a full match of the email pattern. -/
def mailtoOneClaim (a : Anchor) : Option ContactRecord :=
  if startsWithCI "mailto:" a.href then
    let rem : String := ⟨(a.href.data.drop 7).takeWhile fun c => c ≠ '?'⟩
    if reFullmatchB EMAIL_RE rem then
      some { email := some rem
             name := if pyStrip a.text ≠ "" ∧ pyStrip a.text ≠ rem then
                 some (pyStrip a.text)
               else none }
    else none
  else none

/-- The original claim C2 as an extractor over all anchors. -/
def mailtoClaimSpec (ls : List Anchor) : List ContactRecord :=
  ls.filterMap mailtoOneClaim

/-- The amended claim C2: the remainder deletes every case-sensitive
occurrence of the literal `mailto:`, truncates at the first question mark
and trims; a record is emitted iff the email pattern matches at the start
of the remainder (not necessarily all of it). -/
def mailtoAmendedOne (a : Anchor) : Option ContactRecord :=
  if startsWithCI "mailto:" a.href then
    let rem := mailtoRemainder a.href
    if reMatchB EMAIL_RE rem then
      some { email := some rem
             name := if pyStrip a.text ≠ "" ∧ pyStrip a.text ≠ rem then
                 some (pyStrip a.text)
               else none }
    else none
  else none

/-- The amended claim C2 as an extractor over all anchors. -/
def mailtoAmendedSpec (ls : List Anchor) : List ContactRecord :=
  ls.filterMap mailtoAmendedOne

/-- A capitalized word in the sense of claim C3: first letter uppercase,
at least one more character, all remaining characters lowercase. -/
def isCapWord : List Char → Bool
  | [] => false
  | c :: rest => c.isUpper && !rest.isEmpty && rest.all Char.isLower

/-- The shape claim C3 asserts of every capture: two or more words, each
capitalized. -/
def capitalizedShape (l : List Char) : Bool :=
  decide (2 ≤ (wordsOf l).length) && (wordsOf l).all isCapWord

/-- Keyword hit of claim C1 on a processed header cell: some of the eight
keywords occurs as a substring. -/
def headerCellHit (h : String) : Bool :=
  inStr "name" h || inStr "contact" h || inStr "person" h ||
    inStr "email" h || inStr "mail" h ||
    inStr "phone" h || inStr "tel" h || inStr "mobile" h

/-- The consumed part of a successful parseTail: one or more groups, each a
nonempty whitespace run followed by a letter word of length at least two.
Used to relate the NAME_PATTERN capture to its word decomposition. -/
inductive TailShape : List Char → Prop
  | last (sp w : List Char) : sp ≠ [] → (∀ c ∈ sp, c.isWhitespace = true) →
      (∀ c ∈ w, c.isAlpha = true) → 2 ≤ w.length → TailShape (sp ++ w)
  | more (sp w t : List Char) : sp ≠ [] → (∀ c ∈ sp, c.isWhitespace = true) →
      (∀ c ∈ w, c.isAlpha = true) → 2 ≤ w.length → TailShape t →
      TailShape (sp ++ w ++ t)

/-- The document of the claim C4 counterexample: one table whose first row
is the single cell `Phone` and whose second row is the single cell `n/a`,
no anchors or semantic elements, and the corresponding visible text. -/
def phoneTableDoc : Doc :=
  { tables := [[["Phone"], ["n/a"]]]
    anchors := []
    elems := []
    textLines := ["Phone", "n/a"] }

/-- A record in the sense of claim C10: email absent or empty, and phone
absent or canonicalizing to the empty string. -/
def nameOnly (r : ContactRecord) : Bool :=
  (match r.email with
   | none => true
   | some s => s = "") &&
  (match r.phone with
   | none => true
   | some s => canonical_phone s = "")

/-! ## Helper lemmas on characters and stripping -/

theorem wsChar_not_digit {c : Char} (h : c.isWhitespace = true) : c.isDigit = false := by
  simp [Char.isWhitespace] at h
  rcases h with ((h | h) | h) | h <;> subst h <;> decide

theorem wsChar_not_alpha {c : Char} (h : c.isWhitespace = true) : c.isAlpha = false := by
  simp [Char.isWhitespace] at h
  rcases h with ((h | h) | h) | h <;> subst h <;> decide

theorem digit_not_ws {c : Char} (h : c.isDigit = true) : c.isWhitespace = false := by
  cases hw : c.isWhitespace
  · rfl
  · rw [wsChar_not_digit hw] at h
    exact absurd h (by simp)

theorem alpha_not_ws {c : Char} (h : c.isAlpha = true) : c.isWhitespace = false := by
  cases hw : c.isWhitespace
  · rfl
  · rw [wsChar_not_alpha hw] at h
    exact absurd h (by simp)

theorem filter_digit_dropWhile_ws (l : List Char) :
    (l.dropWhile Char.isWhitespace).filter Char.isDigit = l.filter Char.isDigit := by
  induction l with
  | nil => rfl
  | cons c r ih =>
    by_cases h : c.isWhitespace = true
    · rw [List.dropWhile_cons, if_pos h, ih, List.filter_cons, if_neg (by simp [wsChar_not_digit h])]
    · rw [List.dropWhile_cons, if_neg h]

theorem filter_digit_stripL (l : List Char) :
    (stripL l).filter Char.isDigit = l.filter Char.isDigit := by
  unfold stripL
  rw [List.filter_reverse, filter_digit_dropWhile_ws, List.filter_reverse,
    List.reverse_reverse, filter_digit_dropWhile_ws]

theorem dropWhile_ws_eq_self {l : List Char} (h : ∀ c ∈ l, c.isWhitespace = false) :
    l.dropWhile Char.isWhitespace = l := by
  cases l with
  | nil => rfl
  | cons c r => rw [List.dropWhile_cons, if_neg (by simp [h c (by simp)])]

theorem stripL_eq_self {l : List Char} (h : ∀ c ∈ l, c.isWhitespace = false) :
    stripL l = l := by
  unfold stripL
  rw [dropWhile_ws_eq_self h, dropWhile_ws_eq_self (fun c hc => h c (List.mem_reverse.mp hc)),
    List.reverse_reverse]

/-! ## canonical_phone: agreement with the claim, and projection -/

theorem canonical_phone_eq_spec (s : String) : canonical_phone s = canonicalPhoneSpec s := by
  unfold canonical_phone canonicalPhoneSpec canonList
  by_cases h0 : s.data = []
  · simp [h0]
  · rw [if_neg h0]
    have hfil := filter_digit_stripL s.data
    by_cases hds : s.data.filter Char.isDigit = []
    · rw [if_pos (Or.inr hds)]
      simp [hfil, hds, String.ext_iff]
    · rw [if_neg (not_or.mpr ⟨h0, hds⟩)]
      by_cases hp : (stripL s.data).head? = some '+'
      · simp [hfil, hds, hp]
      · simp [hfil, hds, hp]

theorem canonList_fix_digits {ds : List Char} (hne : ds ≠ [])
    (hdig : ∀ c ∈ ds, c.isDigit = true) : canonList ds = ds := by
  have hnws : ∀ c ∈ ds, c.isWhitespace = false := fun c hc => digit_not_ws (hdig c hc)
  unfold canonList
  rw [if_neg hne]
  simp only [stripL_eq_self hnws]
  obtain ⟨d, rest, rfl⟩ : ∃ d rest, ds = d :: rest := by
    cases ds with
    | nil => exact absurd rfl hne
    | cons d rest => exact ⟨d, rest, rfl⟩
  have hd : d.isDigit = true := hdig d (by simp)
  have hdp : d ≠ '+' := by
    intro h
    subst h
    exact absurd hd (by decide)
  have hcond : (decide ((d :: rest).head? = some '+') &&
      !((d :: rest).filter Char.isDigit).isEmpty) = false := by
    simp [hdp]
  rw [if_neg (by rw [hcond]; exact Bool.false_ne_true)]
  exact List.filter_eq_self.mpr hdig

theorem canonList_fix_plus {ds : List Char} (hne : ds ≠ [])
    (hdig : ∀ c ∈ ds, c.isDigit = true) : canonList ('+' :: ds) = '+' :: ds := by
  have hnws : ∀ c ∈ '+' :: ds, c.isWhitespace = false := by
    intro c hc
    rcases List.mem_cons.mp hc with h | h
    · subst h; decide
    · exact digit_not_ws (hdig c h)
  unfold canonList
  rw [if_neg (by simp)]
  simp only [stripL_eq_self hnws]
  have hfc : ('+' :: ds).filter Char.isDigit = ds := by
    rw [List.filter_cons, if_neg (by decide)]
    exact List.filter_eq_self.mpr hdig
  simp [hfc, hne]

theorem canonList_idem (l : List Char) : canonList (canonList l) = canonList l := by
  by_cases h0 : l = []
  · simp [h0, canonList]
  · have hdig : ∀ c ∈ (stripL l).filter Char.isDigit, c.isDigit = true :=
      fun c hc => List.of_mem_filter hc
    by_cases hemp : (stripL l).filter Char.isDigit = []
    · have hcl : canonList l = [] := by
        unfold canonList
        rw [if_neg h0]
        simp [hemp]
      rw [hcl]
      simp [canonList]
    · by_cases hp : (stripL l).head? = some '+'
      · have hcl : canonList l = '+' :: (stripL l).filter Char.isDigit := by
          unfold canonList
          rw [if_neg h0]
          simp [hp, hemp]
        rw [hcl]
        exact canonList_fix_plus hemp hdig
      · have hcl : canonList l = (stripL l).filter Char.isDigit := by
          unfold canonList
          rw [if_neg h0]
          simp [hp]
        rw [hcl]
        exact canonList_fix_digits hemp hdig

/-- Claim C8: phone canonicalization is a projection. -/
theorem C8_canonical_phone_projection (x : String) :
    canonical_phone (canonical_phone x) = canonical_phone x := by
  show (⟨canonList (canonList x.data)⟩ : String) = ⟨canonList x.data⟩
  exact congrArg String.mk (canonList_idem x.data)

/-- Claim C5: canonical_phone trims, keeps the digits in order, restores a
leading plus exactly when the trimmed input starts with one and digits
survive, and returns the empty string on empty or digit-free input; the two
concrete scenarios of the spec evaluate as stated. -/
theorem C5_canonical_phone :
    canonical_phone "+1 (555) 123-4567" = "+15551234567" ∧
    canonical_phone "555.123.4567" = "5551234567" ∧
    ∀ x : String, canonical_phone x = canonicalPhoneSpec x :=
  ⟨by decide, by decide, canonical_phone_eq_spec⟩

/-- Claim C9: normalize_record carries exactly the present fields, each
normalized; absent fields stay absent, none is synthesized. -/
theorem C9_normalize_record_frame (r : ContactRecord) :
    (normalize_record r).name = r.name.map normalize_name ∧
    (normalize_record r).email = r.email.map normalize_email ∧
    (normalize_record r).phone = r.phone.map normalize_phone ∧
    (normalize_record r).source_url = r.source_url.map pyStrip := by
  obtain ⟨n, e, p, u⟩ := r
  refine ⟨?_, ?_, ?_, ?_⟩
  · cases n <;> rfl
  · cases e <;> rfl
  · cases p <;> rfl
  · cases u <;> rfl

/-! ## Deduplication lemmas -/

theorem dedupeAux_eq_keepFirst (l : List ContactRecord) :
    ∀ seen, dedupeAux seen l = keepFirstBy key2 (l.filter fun r => decide (key2 r ∉ seen)) := by
  induction l with
  | nil => intro seen; simp [dedupeAux, keepFirstBy]
  | cons r rs ih =>
    intro seen
    by_cases h : key2 r ∈ seen
    · rw [show dedupeAux seen (r :: rs) = dedupeAux seen rs by simp [dedupeAux, h], ih seen]
      congr 1
      simp [List.filter_cons, h]
    · rw [show dedupeAux seen (r :: rs) = r :: dedupeAux (key2 r :: seen) rs by
        simp [dedupeAux, h], ih (key2 r :: seen)]
      have hkeep : (r :: rs).filter (fun x => decide (key2 x ∉ seen)) =
          r :: rs.filter fun x => decide (key2 x ∉ seen) := by
        simp [List.filter_cons, h]
      rw [hkeep, keepFirstBy]
      congr 2
      simp only [List.filter_filter]
      apply List.filter_congr
      intro x _
      by_cases h1 : key2 x = key2 r <;> by_cases h2 : key2 x ∈ seen <;> simp [h1, h2]

theorem stage1Aux_eq_keepFirst (cands : List ContactRecord) :
    ∀ seen url, stage1Aux url seen cands =
      (keepFirstBy key1 (((cands.filter fun c => anyK1 (key1 c))).filter fun c =>
        decide (key1 c ∉ seen))).map (stamp url) := by
  induction cands with
  | nil => intro seen url; simp [stage1Aux, keepFirstBy]
  | cons c cs ih =>
    intro seen url
    cases hany : anyK1 (key1 c) with
    | false =>
      rw [show stage1Aux url seen (c :: cs) = stage1Aux url seen cs by
        simp [stage1Aux, hany], ih seen url]
      congr 2
      simp [List.filter_cons, hany]
    | true =>
      by_cases hmem : key1 c ∈ seen
      · rw [show stage1Aux url seen (c :: cs) = stage1Aux url seen cs by
          simp [stage1Aux, hany, hmem], ih seen url]
        congr 2
        simp [List.filter_cons, hany, hmem]
      · rw [show stage1Aux url seen (c :: cs) =
            stamp url c :: stage1Aux url (key1 c :: seen) cs by
          simp [stage1Aux, hany, hmem], ih (key1 c :: seen) url]
        have hkeep : (((c :: cs).filter fun x => anyK1 (key1 x)).filter fun x =>
            decide (key1 x ∉ seen)) =
            c :: ((cs.filter fun x => anyK1 (key1 x)).filter fun x =>
              decide (key1 x ∉ seen)) := by
          simp [List.filter_cons, hany, hmem]
        rw [hkeep, keepFirstBy, List.map_cons]
        congr 3
        simp only [List.filter_filter]
        apply List.filter_congr
        intro x _
        by_cases h1 : key1 x = key1 c <;> by_cases h2 : key1 x ∈ seen <;>
          by_cases h3 : anyK1 (key1 x) = true <;> simp [h1, h2, h3]

/-- Claim C6: both dedup stages keep exactly the first occurrence of each
key in processing order, preserving the order of survivors. Stage 1 also
discards all-falsy candidates and stamps the source url; Stage 2 is plain
first-occurrence filtering on the (email, phone) key. -/
theorem C6_dedup_first_occurrence :
    (∀ (cands : List ContactRecord) (url : String),
      stage1Aux url [] cands =
        (keepFirstBy key1 (cands.filter fun c => anyK1 (key1 c))).map (stamp url)) ∧
    (∀ l : List ContactRecord, dedupe_records l = keepFirstBy key2 l) := by
  constructor
  · intro cands url
    rw [stage1Aux_eq_keepFirst cands [] url]
    congr 2
    apply List.filter_eq_self.mpr
    intro a _
    simp
  · intro l
    rw [show dedupe_records l = dedupeAux [] l from rfl, dedupeAux_eq_keepFirst l []]
    congr 1
    apply List.filter_eq_self.mpr
    intro a _
    simp

theorem dedupeAux_key_not_seen :
    ∀ (l : List ContactRecord) seen r, r ∈ dedupeAux seen l → key2 r ∉ seen := by
  intro l
  induction l with
  | nil => intro seen r hr; simp [dedupeAux] at hr
  | cons c cs ih =>
    intro seen r hr
    by_cases h : key2 c ∈ seen
    · rw [show dedupeAux seen (c :: cs) = dedupeAux seen cs by simp [dedupeAux, h]] at hr
      exact ih seen r hr
    · rw [show dedupeAux seen (c :: cs) = c :: dedupeAux (key2 c :: seen) cs by
        simp [dedupeAux, h]] at hr
      rcases List.mem_cons.mp hr with h1 | h1
      · subst h1; exact h
      · have := ih (key2 c :: seen) r h1
        intro hmem
        exact this (List.mem_cons.mpr (Or.inr hmem))

theorem dedupeAux_keys_nodup :
    ∀ (l : List ContactRecord) seen, ((dedupeAux seen l).map key2).Nodup := by
  intro l
  induction l with
  | nil => intro seen; simp [dedupeAux]
  | cons c cs ih =>
    intro seen
    by_cases h : key2 c ∈ seen
    · rw [show dedupeAux seen (c :: cs) = dedupeAux seen cs by simp [dedupeAux, h]]
      exact ih seen
    · rw [show dedupeAux seen (c :: cs) = c :: dedupeAux (key2 c :: seen) cs by
        simp [dedupeAux, h]]
      rw [List.map_cons, List.nodup_cons]
      constructor
      · intro hmem
        rcases List.mem_map.mp hmem with ⟨r, hr, hkey⟩
        exact dedupeAux_key_not_seen cs (key2 c :: seen) r hr
          (by rw [hkey]; exact List.mem_cons_self _ _)
      · exact ih (key2 c :: seen)

theorem dedupeAux_id :
    ∀ (l : List ContactRecord) seen, (l.map key2).Nodup →
      (∀ r ∈ l, key2 r ∉ seen) → dedupeAux seen l = l := by
  intro l
  induction l with
  | nil => intro seen _ _; rfl
  | cons c cs ih =>
    intro seen hnd hout
    rw [List.map_cons, List.nodup_cons] at hnd
    rw [show dedupeAux seen (c :: cs) = c :: dedupeAux (key2 c :: seen) cs by
      simp [dedupeAux, hout c (List.mem_cons_self _ _)]]
    congr 1
    apply ih (key2 c :: seen) hnd.2
    intro r hr
    intro hmem
    rcases List.mem_cons.mp hmem with h1 | h1
    · exact hnd.1 (h1 ▸ List.mem_map_of_mem key2 hr)
    · exact hout r (List.mem_cons.mpr (Or.inr hr)) h1

/-- Claim C7: Stage-2 dedup is idempotent. -/
theorem C7_dedupe_idempotent (l : List ContactRecord) :
    dedupe_records (dedupe_records l) = dedupe_records l :=
  dedupeAux_id (dedupeAux [] l) [] (dedupeAux_keys_nodup l []) (by simp)

/-! ## Claim C10: the empty key collapses all name-only records -/

theorem filter_keyed_len_le_one :
    ∀ (l : List ContactRecord), ((l.map key2).Nodup) →
      ∀ (p : ContactRecord → Bool) (k : String × String),
        (∀ r, p r = true → key2 r = k) → (l.filter p).length ≤ 1 := by
  intro l
  induction l with
  | nil => intro _ p k _; simp
  | cons c cs ih =>
    intro hnd p k hpk
    rw [List.map_cons, List.nodup_cons] at hnd
    rw [List.filter_cons]
    by_cases hp : p c = true
    · rw [if_pos hp]
      have hnil : cs.filter p = [] := by
        rw [List.filter_eq_nil_iff]
        intro a ha hpa
        exact hnd.1 (by
          rw [show key2 c = k from hpk c hp, show k = key2 a from (hpk a hpa).symm]
          exact List.mem_map_of_mem key2 ha)
      simp [hnil]
    · rw [if_neg hp]
      exact ih hnd.2 p k hpk

/-- Claim C10: a record whose email is absent or empty and whose phone is
absent or canonicalizes to empty has the Stage-2 key of two empty strings;
hence at most one such record survives dedupe_records, later name-only
records being dropped even with different names (concrete illustration in
the third conjunct). -/
theorem C10_name_only_collapse :
    (∀ r : ContactRecord, nameOnly r = true → key2 r = ("", "")) ∧
    (∀ l : List ContactRecord, ((dedupe_records l).filter nameOnly).length ≤ 1) ∧
    dedupe_records [{ name := some "Ann" }, { name := some "Bob" }] =
      [{ name := some "Ann" }] := by
  have hkey : ∀ r : ContactRecord, nameOnly r = true → key2 r = ("", "") := by
    intro r h
    unfold nameOnly at h
    rw [Bool.and_eq_true] at h
    obtain ⟨h1, h2⟩ := h
    have e1 : pyLower (r.email.getD "") = "" := by
      cases he : r.email with
      | none => rfl
      | some s =>
        rw [he] at h1
        have hs : s = "" := of_decide_eq_true h1
        subst hs
        rfl
    have e2 : canonical_phone (r.phone.getD "") = "" := by
      cases hp : r.phone with
      | none => rfl
      | some s =>
        rw [hp] at h2
        exact of_decide_eq_true h2
    show (pyLower (r.email.getD ""), canonical_phone (r.phone.getD "")) = ("", "")
    rw [e1, e2]
  refine ⟨hkey, ?_, by decide⟩
  intro l
  exact filter_keyed_len_le_one (dedupe_records l) (dedupeAux_keys_nodup l [])
    nameOnly ("", "") hkey

theorem C10_name_only_collapse_check :
    key2 { name := some "Ann" } = ("", "") ∧
    ((dedupe_records [({ name := some "Ann" } : ContactRecord),
      { name := some "Bob" }]).filter nameOnly).length ≤ 1 :=
  ⟨C10_name_only_collapse.1 _ (by decide), C10_name_only_collapse.2.1 _⟩

/-! ## Claim C4: the Stage-1 non-emptiness invariant, and its failure at
the end of the pipeline -/

theorem key1Lower_truthy {o : Option String} (h : optTruthy (key1Lower o) = true) :
    pyStrip (o.getD "") ≠ "" := by
  cases o with
  | none => simp [key1Lower, optTruthy] at h
  | some s =>
    by_cases hs : s = ""
    · simp [key1Lower, hs, optTruthy] at h
    · rw [show key1Lower (some s) = some (pyLower (pyStrip s)) by
        simp [key1Lower, hs]] at h
      simp only [optTruthy, pyLower, pyStrip, Bool.not_eq_true',
        List.isEmpty_eq_false] at h
      have hne : stripL s.data ≠ [] := by
        intro hnil
        apply h
        simp [hnil]
      simp [pyStrip, String.ext_iff, hne]

theorem key1Plain_truthy {o : Option String} (h : optTruthy (key1Plain o) = true) :
    pyStrip (o.getD "") ≠ "" := by
  cases o with
  | none => simp [key1Plain, optTruthy] at h
  | some s =>
    by_cases hs : s = ""
    · simp [key1Plain, hs, optTruthy] at h
    · rw [show key1Plain (some s) = some (pyStrip s) by simp [key1Plain, hs]] at h
      simp only [optTruthy, pyStrip, Bool.not_eq_true', List.isEmpty_eq_false] at h
      simp [pyStrip, String.ext_iff, h]

theorem stage1Aux_all_nonempty :
    ∀ (cands : List ContactRecord) seen url r, r ∈ stage1Aux url seen cands →
      pyStrip (r.name.getD "") ≠ "" ∨ pyStrip (r.email.getD "") ≠ "" ∨
        pyStrip (r.phone.getD "") ≠ "" := by
  intro cands
  induction cands with
  | nil => intro seen url r hr; simp [stage1Aux] at hr
  | cons c cs ih =>
    intro seen url r hr
    by_cases hc : anyK1 (key1 c) = false ∨ key1 c ∈ seen
    · simp only [stage1Aux] at hr
      rw [if_pos hc] at hr
      exact ih seen url r hr
    · simp only [stage1Aux] at hr
      rw [if_neg hc] at hr
      push_neg at hc
      have hany : anyK1 (key1 c) = true := by
        cases hb : anyK1 (key1 c) with
        | false => exact absurd hb hc.1
        | true => rfl
      rcases List.mem_cons.mp hr with hcase | hcase
      · subst hcase
        simp only [anyK1, key1, Bool.or_eq_true] at hany
        show pyStrip ((stamp url c).name.getD "") ≠ "" ∨
          pyStrip ((stamp url c).email.getD "") ≠ "" ∨
            pyStrip ((stamp url c).phone.getD "") ≠ ""
        rcases hany with (h | h) | h
        · exact Or.inl (key1Lower_truthy h)
        · exact Or.inr (Or.inl (key1Lower_truthy h))
        · exact Or.inr (Or.inr (key1Plain_truthy h))
      · exact ih (key1 c :: seen) url r hcase

/-- Claim C4, amended: every record that survives the Stage-1 filter of
extract_contacts has a content field that is non-empty after trimming.
(The original claim fails for the final pipeline output: normalization can
turn a digit-free phone into the empty string, see the counterexample.) -/
theorem C4_stage1_nonempty (cands : List ContactRecord) (url : String)
    (r : ContactRecord) (hr : r ∈ stage1Aux url [] cands) :
    pyStrip (r.name.getD "") ≠ "" ∨ pyStrip (r.email.getD "") ≠ "" ∨
      pyStrip (r.phone.getD "") ≠ "" :=
  stage1Aux_all_nonempty cands [] url r hr

theorem C4_stage1_nonempty_check :
    ({ name := some "A", source_url := some "u" } : ContactRecord) ∈
      stage1Aux "u" [] [{ name := some "A" }] ∧
    (pyStrip ((({ name := some "A", source_url := some "u" } :
        ContactRecord)).name.getD "") ≠ "" ∨
      pyStrip ((({ name := some "A", source_url := some "u" } :
        ContactRecord)).email.getD "") ≠ "" ∨
      pyStrip ((({ name := some "A", source_url := some "u" } :
        ContactRecord)).phone.getD "") ≠ "") :=
  ⟨by decide, C4_stage1_nonempty [{ name := some "A" }] "u" _ (by decide)⟩

/-- Claim C1: evaluation of the table extractor at the failing input. The
single first-row cell "Name" contains the keyword name, so the claim says
the row is a header and data starts at row one; but the mapped column index
is 0, which is falsy in `any([name_idx, email_idx, phone_idx])`, so the
code starts at row zero and emits the header row itself as a data record. -/
theorem C1_header_zero_index :
    headerCellHit (pyLower (pyStrip "Name")) = true ∧
    headerIdxs [pyLower (pyStrip "Name")] = (some 0, none, none) ∧
    tableStartIdx (headerIdxs [pyLower (pyStrip "Name")]) = 0 ∧
    _extract_from_tables [[["Name"], ["Alice Johnson"]]] =
      [{ name := some "Name" }, { name := some "Alice Johnson" }] := by
  refine ⟨by decide, by decide, by decide, by decide⟩

/-- Claim C2, counterexample: with href `mailto:a@b.co!!!` the remainder is
not a full match of the email pattern, yet the code emits it (re.match is a
prefix match); with href `MAILTO:a@b.co` the claim emits `a@b.co`, yet the
code emits nothing (the replace of the literal `mailto:` is case-sensitive,
so the remainder keeps the uppercase prefix and the match fails). -/
theorem C2_counterexample :
    _extract_mailto_links [Anchor.mk "mailto:a@b.co!!!" ""] =
      [{ email := some "a@b.co!!!" }] ∧
    mailtoClaimSpec [Anchor.mk "mailto:a@b.co!!!" ""] = [] ∧
    _extract_mailto_links [Anchor.mk "MAILTO:a@b.co" ""] = [] ∧
    mailtoClaimSpec [Anchor.mk "MAILTO:a@b.co" ""] = [{ email := some "a@b.co" }] := by
  refine ⟨by decide, by decide, by decide, by decide⟩

/-- Claim C2, amended: on every anchor list the mailto extractor behaves as
the amended description: for anchors whose href starts case-insensitively
with `mailto:`, delete every case-sensitive occurrence of the literal
`mailto:`, truncate at the first question mark, trim; emit exactly when the
email pattern matches at the start of that remainder, with the remainder as
the email and the visible text as name when non-empty and different. -/
theorem C2_mailto_amended (ls : List Anchor) :
    _extract_mailto_links ls = mailtoAmendedSpec ls := by
  induction ls with
  | nil => rfl
  | cons a rest ih =>
    cases h1 : startsWithCI "mailto:" a.href with
    | false =>
      simp [_extract_mailto_links, mailtoAmendedSpec, mailtoAmendedOne, h1, ih]
    | true =>
      cases h2 : reMatchB EMAIL_RE (mailtoRemainder a.href) with
      | false =>
        simp [_extract_mailto_links, mailtoAmendedSpec, mailtoAmendedOne, h1, h2, ih]
      | true =>
        simp [_extract_mailto_links, mailtoAmendedSpec, mailtoAmendedOne, h1, h2, ih]

/-- Claim C4, counterexample: a document whose only content is a table with
first row `Phone` and data row `n/a` drives a record through Stage 1 (its
phone field is non-empty text), normalization maps the digit-free phone to
the empty string, and the final pipeline output is a single record all of
whose content fields are empty after trimming. -/
theorem C4_counterexample :
    runPipeline [(phoneTableDoc, "http://ex.com")] =
      [{ phone := some "", source_url := some "http://ex.com" }] ∧
    (runPipeline [(phoneTableDoc, "http://ex.com")]).any
        (fun r => pyStrip (r.name.getD "") ≠ "" || pyStrip (r.email.getD "") ≠ "" ||
          pyStrip (r.phone.getD "") ≠ "") = false := by
  refine ⟨by decide, by decide⟩

/-! ## Claim C3: the shape of NAME_PATTERN captures -/

theorem parseTail_shape : ∀ (fuel : Nat) (cs : List Char) (out : List Char × List Char),
    parseTail fuel cs = some out → TailShape out.1 := by
  intro fuel
  induction fuel with
  | zero => intro cs out h; simp [parseTail] at h
  | succ f ih =>
    intro cs out h
    simp only [parseTail] at h
    by_cases hsp : (cs.takeWhile Char.isWhitespace).isEmpty = true
    · rw [if_pos hsp] at h
      exact absurd h (by simp)
    · rw [if_neg hsp] at h
      by_cases hw : ((cs.dropWhile Char.isWhitespace).takeWhile Char.isAlpha).length < 2
      · rw [if_pos hw] at h
        exact absurd h (by simp)
      · rw [if_neg hw] at h
        have hspne : cs.takeWhile Char.isWhitespace ≠ [] := by
          intro hnil
          exact hsp (by simp [hnil])
        have hspws : ∀ c ∈ cs.takeWhile Char.isWhitespace, c.isWhitespace = true :=
          fun c hc => List.mem_takeWhile_imp hc
        have hwa : ∀ c ∈ (cs.dropWhile Char.isWhitespace).takeWhile Char.isAlpha,
            c.isAlpha = true := fun c hc => List.mem_takeWhile_imp hc
        have hwlen : 2 ≤ ((cs.dropWhile Char.isWhitespace).takeWhile Char.isAlpha).length :=
          Nat.le_of_not_lt hw
        cases hrec : parseTail f ((cs.dropWhile Char.isWhitespace).dropWhile Char.isAlpha) with
        | some pr =>
          rw [hrec] at h
          have hout := Option.some.inj h
          rw [← hout]
          exact TailShape.more _ _ _ hspne hspws hwa hwlen (ih _ pr hrec)
        | none =>
          rw [hrec] at h
          have hout := Option.some.inj h
          rw [← hout]
          exact TailShape.last _ _ hspne hspws hwa hwlen

theorem wordsAux_ws_skip : ∀ (sp : List Char), (∀ c ∈ sp, c.isWhitespace = true) →
    ∀ r, wordsAux (sp ++ r) [] = wordsAux r [] := by
  intro sp
  induction sp with
  | nil => intro _ r; rfl
  | cons c sp' ih =>
    intro hsp r
    have hc : c.isWhitespace = true := hsp c (by simp)
    show wordsAux (c :: (sp' ++ r)) [] = wordsAux r []
    simp only [wordsAux, hc, if_true, List.isEmpty_nil]
    exact ih (fun x hx => hsp x (by simp [hx])) r

theorem wordsAux_word : ∀ (w : List Char), (∀ c ∈ w, c.isWhitespace = false) →
    ∀ r cur, wordsAux (w ++ r) cur = wordsAux r (w.reverse ++ cur) := by
  intro w
  induction w with
  | nil => intro _ r cur; simp
  | cons c w' ih =>
    intro hw r cur
    have hc : c.isWhitespace = false := hw c (by simp)
    show wordsAux (c :: (w' ++ r)) cur = wordsAux r ((c :: w').reverse ++ cur)
    simp only [wordsAux, hc]
    rw [ih (fun x hx => hw x (by simp [hx])) r (c :: cur)]
    simp

theorem wordsAux_flush {d : Char} (hd : d.isWhitespace = true) {cur : List Char}
    (hcur : cur ≠ []) (r : List Char) :
    wordsAux (d :: r) cur = cur.reverse :: wordsAux r [] := by
  have hne : cur.isEmpty = false := by
    cases cur with
    | nil => exact absurd rfl hcur
    | cons x xs => rfl
  simp only [wordsAux, hd, hne, if_true, Bool.false_eq_true, if_false]

theorem wordsAux_final {w : List Char} (hw : w ≠ []) :
    wordsAux [] w.reverse = [w] := by
  have hne : w.reverse.isEmpty = false := by
    cases hrev : w.reverse with
    | nil => exact absurd (by simpa using hrev) hw
    | cons x xs => rfl
  simp only [wordsAux, hne, Bool.false_eq_true, if_false, List.reverse_reverse]

theorem tailShape_words : ∀ (t : List Char), TailShape t →
    ∀ w : List Char, w ≠ [] → (∀ c ∈ w, c.isWhitespace = false) →
      ∃ rest, wordsOf (w ++ t) = w :: rest ∧ 1 ≤ rest.length ∧
        ∀ u ∈ rest, (∀ c ∈ u, c.isAlpha = true) ∧ 2 ≤ u.length := by
  intro t ht
  induction ht with
  | last sp w2 hspne hspws hw2a hw2len =>
    intro w hw hwns
    have hw2ne : w2 ≠ [] := by
      intro hnil
      rw [hnil] at hw2len
      simp at hw2len
    have hw2ns : ∀ c ∈ w2, c.isWhitespace = false := fun c hc => alpha_not_ws (hw2a c hc)
    obtain ⟨d, sp', rfl⟩ : ∃ d sp', sp = d :: sp' := by
      cases sp with
      | nil => exact absurd rfl hspne
      | cons d sp' => exact ⟨d, sp', rfl⟩
    refine ⟨[w2], ?_, by simp, ?_⟩
    · show wordsAux (w ++ (d :: sp' ++ w2)) [] = w :: [w2]
      rw [wordsAux_word w hwns (d :: sp' ++ w2) []]
      rw [List.append_nil]
      rw [show (d :: sp' ++ w2 : List Char) = d :: (sp' ++ w2) from rfl]
      rw [wordsAux_flush (hspws d (by simp)) (by simp [hw]) (sp' ++ w2)]
      rw [List.reverse_reverse]
      rw [wordsAux_ws_skip sp' (fun x hx => hspws x (by simp [hx])) w2]
      have hstep := wordsAux_word w2 hw2ns [] []
      rw [List.append_nil, List.append_nil] at hstep
      rw [hstep, wordsAux_final hw2ne]
    · intro u hu
      rw [List.mem_singleton] at hu
      subst hu
      exact ⟨hw2a, hw2len⟩
  | more sp w2 t' hspne hspws hw2a hw2len ht' ih =>
    intro w hw hwns
    have hw2ne : w2 ≠ [] := by
      intro hnil
      rw [hnil] at hw2len
      simp at hw2len
    have hw2ns : ∀ c ∈ w2, c.isWhitespace = false := fun c hc => alpha_not_ws (hw2a c hc)
    obtain ⟨d, sp', rfl⟩ : ∃ d sp', sp = d :: sp' := by
      cases sp with
      | nil => exact absurd rfl hspne
      | cons d sp' => exact ⟨d, sp', rfl⟩
    obtain ⟨rest', hrest', hlen', hprops'⟩ := ih w2 hw2ne hw2ns
    refine ⟨w2 :: rest', ?_, by simp, ?_⟩
    · show wordsAux (w ++ (d :: sp' ++ w2 ++ t')) [] = w :: w2 :: rest'
      rw [wordsAux_word w hwns (d :: sp' ++ w2 ++ t') []]
      rw [List.append_nil]
      rw [show (d :: sp' ++ w2 ++ t' : List Char) = d :: (sp' ++ (w2 ++ t')) by simp]
      rw [wordsAux_flush (hspws d (by simp)) (by simp [hw]) (sp' ++ (w2 ++ t'))]
      rw [List.reverse_reverse]
      rw [wordsAux_ws_skip sp' (fun x hx => hspws x (by simp [hx])) (w2 ++ t')]
      have : wordsAux (w2 ++ t') [] = w2 :: rest' := hrest'
      rw [this]
    · intro u hu
      rcases List.mem_cons.mp hu with h | h
      · subst h
        exact ⟨hw2a, hw2len⟩
      · exact hprops' u h

theorem nameMatchAt_words : ∀ (cs cap : List Char), nameMatchAt cs = some cap →
    2 ≤ (wordsOf cap).length ∧
      ∀ u ∈ wordsOf cap, (∀ c ∈ u, c.isAlpha = true) ∧ 2 ≤ u.length := by
  intro cs cap h
  simp only [nameMatchAt] at h
  split at h
  · exact absurd h (by simp)
  next r0 hlab =>
    split at h
    · exact absurd h (by simp)
    next hsp =>
      split at h
      · exact absurd h (by simp)
      next hwlen =>
        split at h
        next c2 rest2 hrec =>
          have hcap := Option.some.inj h
          have hshape : TailShape c2 := parseTail_shape _ _ (c2, rest2) hrec
          have halpha : ∀ c ∈ (r0.dropWhile isSepChar).takeWhile Char.isAlpha,
              c.isAlpha = true := fun c hc => List.mem_takeWhile_imp hc
          have hwne : (r0.dropWhile isSepChar).takeWhile Char.isAlpha ≠ [] := by
            intro hnil
            rw [hnil] at hwlen
            simp at hwlen
          obtain ⟨rest, hw1, hlen, hprops⟩ :=
            tailShape_words c2 hshape _ hwne
              (fun c hc => alpha_not_ws (halpha c hc))
          rw [← hcap, hw1]
          constructor
          · simp only [List.length_cons]
            omega
          · intro u hu
            rcases List.mem_cons.mp hu with hcase | hcase
            · subst hcase
              exact ⟨halpha, Nat.le_of_not_lt hwlen⟩
            · exact hprops u hcase
        · exact absurd h (by simp)

theorem nameSearchL_words : ∀ (cs cap : List Char), nameSearchL cs = some cap →
    2 ≤ (wordsOf cap).length ∧
      ∀ u ∈ wordsOf cap, (∀ c ∈ u, c.isAlpha = true) ∧ 2 ≤ u.length := by
  intro cs
  induction cs with
  | nil => intro cap h; simp [nameSearchL] at h
  | cons c cs' ih =>
    intro cap h
    simp only [nameSearchL] at h
    cases hm : nameMatchAt (c :: cs') with
    | some cap' =>
      rw [hm] at h
      rw [show cap = cap' from (Option.some.inj h).symm]
      exact nameMatchAt_words (c :: cs') cap' hm
    | none =>
      rw [hm] at h
      exact ih cap h

/-- Claim C3, counterexample: the IGNORECASE flag of NAME_PATTERN applies
to the capture group as well, so the all-lowercase `john doe` is captured,
although it is not of the claimed capitalized shape. -/
theorem C3_counterexample :
    nameSearchS "name: john doe" = some "john doe" ∧
    capitalizedShape "john doe".data = false :=
  ⟨by decide, by decide⟩

/-- Claim C3, amended: every capture of NAME_PATTERN consists (after the
label and separator) of two or more consecutive words, each being a letter
followed by one or more letters of either case; the capitalization
requirement of the original claim does not hold because IGNORECASE covers
the capture group. -/
theorem C3_name_shape (s cap : String) (h : nameSearchS s = some cap) :
    2 ≤ (wordsOf cap.data).length ∧
      ∀ u ∈ wordsOf cap.data, (∀ c ∈ u, c.isAlpha = true) ∧ 2 ≤ u.length := by
  unfold nameSearchS at h
  cases hL : nameSearchL s.data with
  | none =>
    rw [hL] at h
    exact absurd h (by simp)
  | some l =>
    rw [hL] at h
    have : (⟨l⟩ : String) = cap := by simpa using h
    rw [show cap.data = l by rw [← this]]
    exact nameSearchL_words s.data l hL

theorem C3_name_shape_check :
    nameSearchS "Name: John Doe" = some "John Doe" ∧
    (2 ≤ (wordsOf ("John Doe" : String).data).length ∧
      ∀ u ∈ wordsOf ("John Doe" : String).data,
        (∀ c ∈ u, c.isAlpha = true) ∧ 2 ≤ u.length) :=
  ⟨by decide, C3_name_shape "Name: John Doe" "John Doe" (by decide)⟩
